import Mathlib

/-!
# Verification of the `itfs` recursive directory-iterator library

A shallow embedding of the library's core: the recursive traversal engine
(`ReadDirRecursive` from `src/lib.rs`), the pruning traversal
(`FindDirsWithComponent`), the filter pipeline (`ComponentFilter`,
`ExtensionFilter`, `AllowExtensions`, `EntryToPath`) and the pure path
re-rooting function (`path_re_root`).

Filesystem paths are modelled as lists of components (mirroring
`std::path::Path::components`), the filesystem itself as an abstract
oracle supplying the two external primitives the library uses
(`fs::read_dir` and `DirEntry::metadata`), and each Rust iterator's
`next` as a function from explicit state to an (item, state) outcome.
The unbounded `loop` in each `next` is embedded with a fuel parameter;
iterator chains over a finite upstream are embedded as functions on
lists.
-/

namespace Itfs

/-- One path component, mirroring `std::path::Component` (Unix flavour:
no prefix components). -/
inductive Component where
  | rootDir
  | curDir
  | parentDir
  | normal (s : String)
deriving DecidableEq, Repr

/-- A path, as its sequence of components (what `Path::components()` yields). -/
abbrev RPath := List Component

/-- `Component::as_os_str`. -/
def Component.asOsStr : Component → String
  | .rootDir => "/"
  | .curDir => "."
  | .parentDir => ".."
  | .normal s => s

/-- `Path::is_absolute` on Unix: the path has a root. -/
def RPath.isAbsolute : RPath → Bool
  | .rootDir :: _ => true
  | _ => false

/-- `Path::strip_prefix`: succeeds iff the prefix's components are an initial
segment of the path's components, returning the remaining components.
`StripPrefixError` is a fieldless error type, modelled as `Unit`. -/
def stripPrefixComponents (p pre : RPath) : Except Unit RPath :=
  if pre.isPrefixOf p then .ok (p.drop pre.length) else .error ()

/-- `Path::join` / `PathBuf::push`: an absolute argument replaces the whole
path, otherwise the components are appended. -/
def RPath.join (a b : RPath) : RPath :=
  if b.isAbsolute then b else a ++ b

/-- `path_re_root` from `src/path_reroot.rs`: strip `find` from the front of
`path` and join the remainder onto `replace_by`. -/
def path_re_root (path find replace_by : RPath) : Except Unit RPath :=
  match stripPrefixComponents path find with
  | .ok rest => .ok (RPath.join replace_by rest)
  | .error e => .error e

/-- Rendering of a path to a string, as `Path::as_os_str().to_str()` would
produce it (used only to record offending paths in the error logs). -/
def pathToString : RPath → String
  | .rootDir :: rest => "/" ++ String.intercalate "/" (rest.map Component.asOsStr)
  | p => String.intercalate "/" (p.map Component.asOsStr)

/-- I/O errors are identified by their message string (the library only ever
uses `e.to_string()` of an `io::Error`). -/
abbrev IoErr := String

/-- `fs::DirEntry`: the library only consults an entry's path (`entry.path()`);
its metadata is obtained from the filesystem oracle. -/
structure Entry where
  path : RPath
deriving DecidableEq, Repr

/-- `fs::Metadata`, restricted to the one query the library makes. -/
structure Metadata where
  is_dir : Bool
deriving DecidableEq, Repr

instance exceptDecEq {ε α : Type} [DecidableEq ε] [DecidableEq α] :
    DecidableEq (Except ε α) := fun x y =>
  match x, y with
  | .ok a, .ok b =>
      if h : a = b then isTrue (by rw [h]) else isFalse (by simp [h])
  | .error a, .error b =>
      if h : a = b then isTrue (by rw [h]) else isFalse (by simp [h])
  | .ok _, .error _ => isFalse (by simp)
  | .error _, .ok _ => isFalse (by simp)

/-- The external filesystem collaborator. `read_dir p` models `fs::read_dir(p)`:
either the open fails, or it yields a finite list of items, each an entry or a
read error. `metadata e` models `DirEntry::metadata`. -/
structure FS where
  read_dir : RPath → Except IoErr (List (Except IoErr Entry))
  metadata : Entry → Except IoErr Metadata

/-- `RDRStats` from `src/lib.rs`. -/
structure RDRStats where
  iteration_started : Option Nat := none
  max_stacked_dirs : Nat := 0
  total_files_consumed : Nat := 0
  total_dirs_consumed : Nat := 0
  total_iterations : Nat := 0
deriving DecidableEq, Repr

/-- The error logs are `HashMap<String, Vec<String>>`; modelled as association
lists from error message to the ordered list of offending path strings. -/
abbrev ErrLog := List (String × List String)

/-- Record one (message, path) pair in a log, as `register_meta_error` /
`register_rd_error` do: create the key with an empty vector if absent, then
push the path onto the vector for that key. -/
def logError (m : ErrLog) (k v : String) : ErrLog :=
  match m with
  | [] => [(k, [v])]
  | (k', vs) :: rest =>
      if k' = k then (k', vs ++ [v]) :: rest else (k', vs) :: logError rest k v

/-- The `ReadDirRecursive` iterator state from `src/lib.rs`. The active
`fs::ReadDir` handle is modelled by the list of items it has yet to yield.
The `pending_dirs` vector is used only as a stack (push/pop at the same end),
embedded with the list head as the top. -/
structure ReadDirRecursive where
  current_path : RPath
  read_dir : List (Except IoErr Entry)
  pending_dirs : List Entry
  stats : RDRStats
  meta_errors : ErrLog
  rd_errors : ErrLog
deriving DecidableEq, Repr

namespace ReadDirRecursive

/-- `ReadDirRecursive::new`: eagerly open the root; on failure no state is
produced, on success the state starts with the root handle, empty pending
stack, default stats and empty error logs. -/
def new (fs : FS) (path : RPath) : Except IoErr ReadDirRecursive :=
  match fs.read_dir path with
  | .error e => .error e
  | .ok rd =>
      .ok { current_path := path
            read_dir := rd
            pending_dirs := []
            stats := {}
            meta_errors := []
            rd_errors := [] }

/-- `ReadDirRecursive::digest_dir`: push the directory entry onto
`pending_dirs` and update the directory statistics. -/
def digest_dir (s : ReadDirRecursive) (entry : Entry) : ReadDirRecursive :=
  let s' := { s with
    pending_dirs := entry :: s.pending_dirs
    stats := { s.stats with total_dirs_consumed := s.stats.total_dirs_consumed + 1 } }
  if s'.pending_dirs.length > s'.stats.max_stacked_dirs then
    { s' with stats := { s'.stats with max_stacked_dirs := s'.pending_dirs.length } }
  else s'

/-- `ReadDirRecursive::register_meta_error`. -/
def register_meta_error (s : ReadDirRecursive) (e : IoErr) (entry : Entry) :
    ReadDirRecursive :=
  { s with meta_errors := logError s.meta_errors e (pathToString entry.path) }

/-- `ReadDirRecursive::register_rd_error` (keyed by the message, recording the
current directory path). -/
def register_rd_error (s : ReadDirRecursive) (e : IoErr) : ReadDirRecursive :=
  { s with rd_errors := logError s.rd_errors e (pathToString s.current_path) }

end ReadDirRecursive

/-- Outcome of one call to `ReadDirRecursive::next`: an item was yielded
(`Some(item)` with the mutated state), the iteration finished (`None`), or the
fuel bounding the embedded `loop` ran out. -/
inductive NextResult where
  | yield (item : Except IoErr Entry) (s : ReadDirRecursive)
  | done (s : ReadDirRecursive)
  | outOfFuel
deriving DecidableEq, Repr

namespace ReadDirRecursive

/-- The `loop` body of `ReadDirRecursive::next`, with explicit fuel: inspect
the next item of the active handle; push directories and keep looping; yield
files and errors; on exhaustion pop a pending directory and re-enter the loop
with its freshly opened handle (or yield the open failure), terminating when
the pending stack is empty. -/
def nextLoop (fs : FS) : Nat → ReadDirRecursive → NextResult
  | 0, _ => .outOfFuel
  | fuel + 1, s =>
    match s.read_dir with
    | .ok entry :: rest =>
        match fs.metadata entry with
        | .ok meta =>
            if meta.is_dir then
              nextLoop fs fuel (digest_dir { s with read_dir := rest } entry)
            else
              .yield (.ok entry)
                { s with read_dir := rest
                         stats := { s.stats with
                           total_files_consumed := s.stats.total_files_consumed + 1 } }
        | .error e =>
            .yield (.error e) (register_meta_error { s with read_dir := rest } e entry)
    | .error err :: rest =>
        .yield (.error err) (register_rd_error { s with read_dir := rest } err)
    | [] =>
        match s.pending_dirs with
        | dir_entry :: pend =>
            match fs.read_dir dir_entry.path with
            | .ok rd =>
                nextLoop fs fuel
                  { s with pending_dirs := pend
                           read_dir := rd
                           current_path := dir_entry.path }
            | .error e =>
                .yield (.error e) (register_rd_error { s with pending_dirs := pend } e)
        | [] => .done s

/-- `ReadDirRecursive::next`: record the start timestamp on the first call
(`mark_start`, with the clock reading passed in as `now`), bump
`total_iterations`, then run the loop. -/
def next (fs : FS) (now : Nat) (fuel : Nat) (s : ReadDirRecursive) : NextResult :=
  let s1 :=
    if s.stats.iteration_started = none then
      { s with stats := { s.stats with iteration_started := some now } }
    else s
  nextLoop fs fuel
    { s1 with stats := { s1.stats with total_iterations := s1.stats.total_iterations + 1 } }

/-- Driving the iterator to exhaustion: repeatedly call `next`, collecting the
yielded items; `none` when either fuel bound is hit. -/
def drain (fs : FS) (now : Nat) (fuel : Nat) :
    Nat → ReadDirRecursive → Option (List (Except IoErr Entry) × ReadDirRecursive)
  | 0, _ => none
  | steps + 1, s =>
    match next fs now fuel s with
    | .yield item s' =>
        match drain fs now fuel steps s' with
        | some (items, sf) => some (item :: items, sf)
        | none => none
    | .done s' => some ([], s')
    | .outOfFuel => none

end ReadDirRecursive

/-- The states of the traversal engine reachable from construction by any
sequence of pulls. -/
inductive Reachable (fs : FS) : ReadDirRecursive → Prop where
  | init (root : RPath) (s : ReadDirRecursive) :
      ReadDirRecursive.new fs root = .ok s → Reachable fs s
  | step (s : ReadDirRecursive) (now fuel : Nat) (item : Except IoErr Entry)
      (s' : ReadDirRecursive) : Reachable fs s →
      ReadDirRecursive.next fs now fuel s = .yield item s' → Reachable fs s'
  | stepDone (s : ReadDirRecursive) (now fuel : Nat) (s' : ReadDirRecursive) :
      Reachable fs s →
      ReadDirRecursive.next fs now fuel s = .done s' → Reachable fs s'

/-- The C2 invariant: every entry on the pending stack has been confirmed (via
a successful metadata query) to be a directory. -/
def pendingDirsOnly (fs : FS) (s : ReadDirRecursive) : Prop :=
  ∀ e ∈ s.pending_dirs, ∃ m, fs.metadata e = .ok m ∧ m.is_dir = true

/-- `path.components().any(|c| c.as_os_str() == osstr)`: does any component of
the path render to the given name? Used by both `ComponentFilter` and
`FindDirsWithComponent`. -/
def hasComponentNamed (p : RPath) (name : String) : Bool :=
  p.any (fun c => c.asOsStr = name)

/-- The `FindDirsWithComponent` iterator state from
`src/find_dirs_with_component.rs`. -/
structure FindDirsWithComponent where
  component : String
  read_dir : List (Except IoErr Entry)
  pending_dirs : List Entry
deriving DecidableEq, Repr

namespace FindDirsWithComponent

/-- `FindDirsWithComponent::new`: eagerly open the root. -/
def new (fs : FS) (path : RPath) (component : String) :
    Except IoErr FindDirsWithComponent :=
  match fs.read_dir path with
  | .error e => .error e
  | .ok rd => .ok { component := component, read_dir := rd, pending_dirs := [] }

/-- Outcome of one call to `FindDirsWithComponent::next`. -/
inductive Result where
  | yield (item : Except IoErr Entry) (s : FindDirsWithComponent)
  | done (s : FindDirsWithComponent)
  | outOfFuel
deriving DecidableEq, Repr

/-- The `loop` of `FindDirsWithComponent::next`, with explicit fuel: a
directory whose full path contains the designated component is yielded
immediately (and never pushed); other directories are pushed for later
descent; non-directory entries are skipped; metadata and read errors are
yielded; on handle exhaustion a pending directory is popped and opened. -/
def next (fs : FS) : Nat → FindDirsWithComponent → Result
  | 0, _ => .outOfFuel
  | fuel + 1, s =>
    match s.read_dir with
    | .ok entry :: rest =>
        match fs.metadata entry with
        | .ok meta =>
            if meta.is_dir then
              if hasComponentNamed entry.path s.component then
                .yield (.ok entry) { s with read_dir := rest }
              else
                next fs fuel
                  { s with read_dir := rest, pending_dirs := entry :: s.pending_dirs }
            else
              next fs fuel { s with read_dir := rest }
        | .error e => .yield (.error e) { s with read_dir := rest }
    | .error err :: rest => .yield (.error err) { s with read_dir := rest }
    | [] =>
        match s.pending_dirs with
        | dir_entry :: pend =>
            match fs.read_dir dir_entry.path with
            | .ok rd => next fs fuel { s with pending_dirs := pend, read_dir := rd }
            | .error e => .yield (.error e) { s with pending_dirs := pend }
        | [] => .done s

/-- Driving `FindDirsWithComponent` to exhaustion. -/
def drain (fs : FS) (fuel : Nat) :
    Nat → FindDirsWithComponent → Option (List (Except IoErr Entry) × FindDirsWithComponent)
  | 0, _ => none
  | steps + 1, s =>
    match next fs fuel s with
    | .yield item s' =>
        match drain fs fuel steps s' with
        | some (items, sf) => some (item :: items, sf)
        | none => none
    | .done s' => some ([], s')
    | .outOfFuel => none

end FindDirsWithComponent

/-- `ComponentFilterOperationType` from `src/component_filter.rs`. -/
inductive ComponentFilterOperationType where
  | Include
  | Exclude
deriving DecidableEq, Repr

/-- The `ComponentFilter` keep decision shared by its four `Iterator`
implementations: under `Include` keep items whose path has the component,
under `Exclude` keep those whose path does not. -/
def componentFilterKeeps (op : ComponentFilterOperationType) (name : String)
    (p : RPath) : Bool :=
  match op, hasComponentNamed p name with
  | .Include, true | .Exclude, false => true
  | .Include, false | .Exclude, true => false

/-- One pull of `ComponentFilter::next` for the `Result<DirEntry>` item shape
over a finite upstream: skip `Ok` entries the policy drops, yield the first
`Ok` entry the policy keeps or the first `Err` (untouched), together with the
not-yet-consumed upstream remainder; `none` when the upstream is exhausted. -/
def componentFilterNextRE (op : ComponentFilterOperationType) (name : String) :
    List (Except IoErr Entry) →
      Option (Except IoErr Entry × List (Except IoErr Entry))
  | [] => none
  | .ok e :: rest =>
      if componentFilterKeeps op name e.path then some (.ok e, rest)
      else componentFilterNextRE op name rest
  | .error err :: rest => some (.error err, rest)

/-- The full output of `ComponentFilter` (the `Result<DirEntry>` shape) over a
finite upstream. -/
def runComponentFilterRE (op : ComponentFilterOperationType) (name : String) :
    List (Except IoErr Entry) → List (Except IoErr Entry)
  | [] => []
  | .ok e :: rest =>
      if componentFilterKeeps op name e.path then
        .ok e :: runComponentFilterRE op name rest
      else runComponentFilterRE op name rest
  | .error err :: rest => .error err :: runComponentFilterRE op name rest

/-- `Path::file_name`, restricted to the use the library makes of it: the
final component when it is a normal one. -/
def fileNameOf (p : RPath) : Option String :=
  match p.getLast? with
  | some (.normal s) => some s
  | _ => none

/-- `Path::extension` on a file name: `None` when there is no embedded `.` or
when the only `.` starts a leading-dot name; otherwise the portion after the
final `.`. -/
def extensionOfName (s : String) : Option String :=
  match s.splitOn "." with
  | [] => none
  | [_] => none
  | ["", _] => none
  | _ :: rest => rest.getLast?

/-- `Path::extension`. -/
def extensionOf (p : RPath) : Option String :=
  match fileNameOf p with
  | some s => extensionOfName s
  | none => none

/-- `ExtensionFilter::is_allowed_extension`: scan the list of allowed
extensions for one equal to the given extension. -/
def is_allowed_extension (allowed : List String) (ext : String) : Bool :=
  allowed.any (fun e => ext = e)

/-- The extension filter's keep decision on a path, shared by all the
`Iterator` implementations of `ExtensionFilter` (and `AllowExtensions`):
a path with no extension is dropped, otherwise its extension must be in the
allowed list. -/
def extensionKeeps (allowed : List String) (p : RPath) : Bool :=
  match extensionOf p with
  | some ext => is_allowed_extension allowed ext
  | none => false

/-- One pull of `ExtensionFilter::next` for the `Result<DirEntry, Error>` item
shape over a finite upstream: `Ok` entries with a disallowed or missing
extension are skipped, the first kept `Ok` entry or the first `Err`
(untouched) is yielded with the remaining upstream. -/
def extensionFilterNextRE (allowed : List String) :
    List (Except IoErr Entry) →
      Option (Except IoErr Entry × List (Except IoErr Entry))
  | [] => none
  | .ok e :: rest =>
      match extensionOf e.path with
      | some ext =>
          if is_allowed_extension allowed ext then some (.ok e, rest)
          else extensionFilterNextRE allowed rest
      | none => extensionFilterNextRE allowed rest
  | .error err :: rest => some (.error err, rest)

/-- The full output of `ExtensionFilter` for the `Result<DirEntry, Error>`
item shape. -/
def runExtensionFilterRE (allowed : List String) :
    List (Except IoErr Entry) → List (Except IoErr Entry)
  | [] => []
  | .ok e :: rest =>
      match extensionOf e.path with
      | some ext =>
          if is_allowed_extension allowed ext then
            .ok e :: runExtensionFilterRE allowed rest
          else runExtensionFilterRE allowed rest
      | none => runExtensionFilterRE allowed rest
  | .error err :: rest => .error err :: runExtensionFilterRE allowed rest

/-- The full output of `ExtensionFilter` for the `DirEntry` item shape. -/
def runExtensionFilterEntry (allowed : List String) : List Entry → List Entry
  | [] => []
  | e :: rest =>
      match extensionOf e.path with
      | some ext =>
          if is_allowed_extension allowed ext then
            e :: runExtensionFilterEntry allowed rest
          else runExtensionFilterEntry allowed rest
      | none => runExtensionFilterEntry allowed rest

/-- The full output of `ExtensionFilter` for the `PathBuf` item shape. -/
def runExtensionFilterPath (allowed : List String) : List RPath → List RPath
  | [] => []
  | p :: rest =>
      match extensionOf p with
      | some ext =>
          if is_allowed_extension allowed ext then
            p :: runExtensionFilterPath allowed rest
          else runExtensionFilterPath allowed rest
      | none => runExtensionFilterPath allowed rest

/-- One pull of `EntryToPath::next` for the `Result<DirEntry>` item shape:
project an `Ok` entry to its path, pass an `Err` through unchanged. -/
def entryToPathNextRE :
    List (Except IoErr Entry) → Option (Except IoErr RPath × List (Except IoErr Entry))
  | [] => none
  | .ok e :: rest => some (.ok e.path, rest)
  | .error err :: rest => some (.error err, rest)

/-- The full output of `EntryToPath` for the `Result<DirEntry>` item shape. -/
def runEntryToPathRE : List (Except IoErr Entry) → List (Except IoErr RPath)
  | [] => []
  | .ok e :: rest => .ok e.path :: runEntryToPathRE rest
  | .error err :: rest => .error err :: runEntryToPathRE rest

/-- The `Ok` values of a fallible item list, in order. -/
def oksOf {α : Type} : List (Except IoErr α) → List α
  | [] => []
  | .ok a :: rest => a :: oksOf rest
  | .error _ :: rest => oksOf rest

/-- The `Err` values of a fallible item list, in order. -/
def errsOf {α : Type} : List (Except IoErr α) → List IoErr
  | [] => []
  | .ok _ :: rest => errsOf rest
  | .error e :: rest => e :: errsOf rest

/-- The closed set of item shapes of the spec's ItemShape concept. -/
inductive ItemShape where
  | bareEntry
  | fallibleEntry
  | plainPath
  | falliblePath
deriving DecidableEq, Repr

/-- All four item shapes. -/
def allItemShapes : List ItemShape :=
  [.bareEntry, .fallibleEntry, .plainPath, .falliblePath]

/-- The item shapes for which `ComponentFilter` has an `Iterator`
implementation in `src/component_filter.rs` (impl blocks for `DirEntry`,
`Result<DirEntry, E>`, `PathBuf`, `Result<PathBuf, E>`). -/
def componentFilterShapes : List ItemShape :=
  [.bareEntry, .fallibleEntry, .plainPath, .falliblePath]

/-- The item shapes for which `ExtensionFilter` has an `Iterator`
implementation in `src/extension_filter.rs` (impl blocks for
`Result<DirEntry, Error>`, `DirEntry`, `PathBuf` only). -/
def extensionFilterShapes : List ItemShape :=
  [.fallibleEntry, .bareEntry, .plainPath]

/-- The item shapes for which `AllowExtensions` has an `Iterator`
implementation in `src/allow_extensions.rs` (impl blocks for
`Result<DirEntry, Error>`, `DirEntry`, `PathBuf` only). -/
def allowExtensionsShapes : List ItemShape :=
  [.fallibleEntry, .bareEntry, .plainPath]

/-- The item shapes for which `EntryToPath` has an `Iterator` implementation
in `src/entry_to_path.rs` (impl blocks for `DirEntry` and
`Result<DirEntry>`). -/
def entryToPathShapes : List ItemShape :=
  [.bareEntry, .fallibleEntry]

/-- Expected per-item outcome of a fully pruned `FindDirsWithComponent`
traversal (the case in which every directory matches): a read error or a
metadata error is surfaced, a directory with successful metadata is yielded
as a match, a non-directory entry is skipped. -/
def prunedItemOf (fs : FS) : Except IoErr Entry → Option (Except IoErr Entry)
  | .error e => some (.error e)
  | .ok entry =>
      match fs.metadata entry with
      | .error e => some (.error e)
      | .ok meta => if meta.is_dir then some (.ok entry) else none

/-- A concrete two-level filesystem used to witness the traversal theorems:
the root `""` contains a directory `d` and a file `f`; `d` contains a file
`g`; every other path fails to open. -/
def fsEx : FS where
  read_dir := fun p =>
    if p = [] then
      .ok [.ok ⟨[.normal "d"]⟩, .ok ⟨[.normal "f"]⟩]
    else if p = [.normal "d"] then
      .ok [.ok ⟨[.normal "d", .normal "g"]⟩]
    else .error "not found"
  metadata := fun e => .ok ⟨e.path == [.normal "d"]⟩

/-- The engine state `ReadDirRecursive::new` produces on `fsEx` at root `""`. -/
def rdrEx : ReadDirRecursive :=
  { current_path := []
    read_dir := [.ok ⟨[.normal "d"]⟩, .ok ⟨[.normal "f"]⟩]
    pending_dirs := []
    stats := {}
    meta_errors := []
    rd_errors := [] }

/-- A concrete filesystem whose root path `/sub` itself contains the
component `sub`: it holds a subdirectory `/sub/d` (itself containing a file)
and a file `/sub/f`. Used to witness the pruning-traversal theorem. -/
def fsPruneEx : FS where
  read_dir := fun p =>
    if p = [.rootDir, .normal "sub"] then
      .ok [.ok ⟨[.rootDir, .normal "sub", .normal "d"]⟩,
           .ok ⟨[.rootDir, .normal "sub", .normal "f"]⟩]
    else if p = [.rootDir, .normal "sub", .normal "d"] then
      .ok [.ok ⟨[.rootDir, .normal "sub", .normal "d", .normal "g"]⟩]
    else .error "not found"
  metadata := fun e => .ok ⟨e.path == [.rootDir, .normal "sub", .normal "d"]⟩

/-- The state `FindDirsWithComponent::new` produces on `fsPruneEx` at root
`/sub` with component `sub`. -/
def fdwcEx : FindDirsWithComponent :=
  { component := "sub"
    read_dir := [.ok ⟨[.rootDir, .normal "sub", .normal "d"]⟩,
                 .ok ⟨[.rootDir, .normal "sub", .normal "f"]⟩]
    pending_dirs := [] }

/-- The exhausted engine state after fully draining `fsEx` from the root. -/
def rdrFinalEx : ReadDirRecursive :=
  { current_path := [.normal "d"]
    read_dir := []
    pending_dirs := []
    stats := { iteration_started := some 0
               max_stacked_dirs := 1
               total_files_consumed := 2
               total_dirs_consumed := 1
               total_iterations := 3 }
    meta_errors := []
    rd_errors := [] }

/-! ## Filter pipeline lemmas -/

theorem errsOf_runComponentFilterRE (op : ComponentFilterOperationType)
    (name : String) (xs : List (Except IoErr Entry)) :
    errsOf (runComponentFilterRE op name xs) = errsOf xs := by
  induction xs with
  | nil => rfl
  | cons x rest ih =>
      cases x with
      | ok e =>
          by_cases h : componentFilterKeeps op name e.path = true <;>
            simp [runComponentFilterRE, errsOf, h, ih]
      | error err => simp [runComponentFilterRE, errsOf, ih]

theorem oksOf_runComponentFilterRE (op : ComponentFilterOperationType)
    (name : String) (xs : List (Except IoErr Entry)) :
    oksOf (runComponentFilterRE op name xs) =
      (oksOf xs).filter (fun e => componentFilterKeeps op name e.path) := by
  induction xs with
  | nil => rfl
  | cons x rest ih =>
      cases x with
      | ok e =>
          by_cases h : componentFilterKeeps op name e.path = true <;>
            simp [runComponentFilterRE, oksOf, List.filter, h, ih]
      | error err => simp [runComponentFilterRE, oksOf, ih]

theorem componentFilterKeeps_Include (name : String) (p : RPath) :
    componentFilterKeeps .Include name p = hasComponentNamed p name := by
  cases h : hasComponentNamed p name <;> simp [componentFilterKeeps, h]

theorem componentFilterKeeps_Exclude (name : String) (p : RPath) :
    componentFilterKeeps .Exclude name p = !hasComponentNamed p name := by
  cases h : hasComponentNamed p name <;> simp [componentFilterKeeps, h]

theorem errsOf_runExtensionFilterRE (allowed : List String)
    (xs : List (Except IoErr Entry)) :
    errsOf (runExtensionFilterRE allowed xs) = errsOf xs := by
  induction xs with
  | nil => rfl
  | cons x rest ih =>
      cases x with
      | ok e =>
          cases hx : extensionOf e.path with
          | none => simp [runExtensionFilterRE, errsOf, hx, ih]
          | some ext =>
              by_cases h : is_allowed_extension allowed ext = true <;>
                simp [runExtensionFilterRE, errsOf, hx, h, ih]
      | error err => simp [runExtensionFilterRE, errsOf, ih]

theorem oksOf_runExtensionFilterRE (allowed : List String)
    (xs : List (Except IoErr Entry)) :
    oksOf (runExtensionFilterRE allowed xs) =
      (oksOf xs).filter (fun e => extensionKeeps allowed e.path) := by
  induction xs with
  | nil => rfl
  | cons x rest ih =>
      cases x with
      | ok e =>
          cases hx : extensionOf e.path with
          | none => simp [runExtensionFilterRE, oksOf, extensionKeeps, hx, ih]
          | some ext =>
              by_cases h : is_allowed_extension allowed ext = true <;>
                simp [runExtensionFilterRE, oksOf, extensionKeeps, List.filter, hx, h, ih]
      | error err => simp [runExtensionFilterRE, oksOf, ih]

theorem runExtensionFilterEntry_eq_filter (allowed : List String) (ys : List Entry) :
    runExtensionFilterEntry allowed ys =
      ys.filter (fun e => extensionKeeps allowed e.path) := by
  induction ys with
  | nil => rfl
  | cons e rest ih =>
      cases hx : extensionOf e.path with
      | none => simp [runExtensionFilterEntry, extensionKeeps, hx, ih]
      | some ext =>
          by_cases h : is_allowed_extension allowed ext = true <;>
            simp [runExtensionFilterEntry, extensionKeeps, List.filter, hx, h, ih]

theorem runExtensionFilterPath_eq_filter (allowed : List String) (ps : List RPath) :
    runExtensionFilterPath allowed ps = ps.filter (extensionKeeps allowed) := by
  induction ps with
  | nil => rfl
  | cons p rest ih =>
      cases hx : extensionOf p with
      | none => simp [runExtensionFilterPath, extensionKeeps, hx, ih]
      | some ext =>
          by_cases h : is_allowed_extension allowed ext = true <;>
            simp [runExtensionFilterPath, extensionKeeps, List.filter, hx, h, ih]

theorem errsOf_runEntryToPathRE (xs : List (Except IoErr Entry)) :
    errsOf (runEntryToPathRE xs) = errsOf xs := by
  induction xs with
  | nil => rfl
  | cons x rest ih => cases x <;> simp [runEntryToPathRE, errsOf, ih]

/-! ## Claim theorems: filter family -/

/-- **C4**: for each filter of the pipeline family instantiated at a fallible
item shape (component-name filter, extension allow-filter, entry-to-path
projector), an `Err` pulled from the upstream is yielded unchanged as that
pull's output with the upstream advanced past it — for every configuration,
so the predicate is never consulted — and over a whole run the `Err` items
appear in the output exactly as in the upstream. -/
theorem fallible_filters_pass_errors_untouched (op : ComponentFilterOperationType)
    (name : String) (allowed : List String) (e : IoErr)
    (rest xs : List (Except IoErr Entry)) :
    componentFilterNextRE op name (.error e :: rest) = some (.error e, rest) ∧
    extensionFilterNextRE allowed (.error e :: rest) = some (.error e, rest) ∧
    entryToPathNextRE (.error e :: rest) = some (.error e, rest) ∧
    errsOf (runComponentFilterRE op name xs) = errsOf xs ∧
    errsOf (runExtensionFilterRE allowed xs) = errsOf xs ∧
    errsOf (runEntryToPathRE xs) = errsOf xs :=
  ⟨rfl, rfl, rfl, errsOf_runComponentFilterRE op name xs,
    errsOf_runExtensionFilterRE allowed xs, errsOf_runEntryToPathRE xs⟩

/-- **C6**: on the same upstream, the component filter under `Include` keeps
exactly the `Ok` items some component of whose path equals the name, under
`Exclude` exactly the others; the two `Ok` outputs partition the upstream's
`Ok` items (their concatenation is a permutation of them), and the `Err`
items appear identically, in order, in both outputs. -/
theorem component_filter_include_exclude_partition (name : String)
    (xs : List (Except IoErr Entry)) :
    oksOf (runComponentFilterRE .Include name xs) =
      (oksOf xs).filter (fun e => hasComponentNamed e.path name) ∧
    oksOf (runComponentFilterRE .Exclude name xs) =
      (oksOf xs).filter (fun e => !hasComponentNamed e.path name) ∧
    (oksOf (runComponentFilterRE .Include name xs) ++
      oksOf (runComponentFilterRE .Exclude name xs)).Perm (oksOf xs) ∧
    errsOf (runComponentFilterRE .Include name xs) = errsOf xs ∧
    errsOf (runComponentFilterRE .Exclude name xs) = errsOf xs := by
  have hinc := oksOf_runComponentFilterRE .Include name xs
  have hexc := oksOf_runComponentFilterRE .Exclude name xs
  simp only [componentFilterKeeps_Include, componentFilterKeeps_Exclude] at hinc hexc
  refine ⟨hinc, hexc, ?_, errsOf_runComponentFilterRE .Include name xs,
    errsOf_runComponentFilterRE .Exclude name xs⟩
  rw [hinc, hexc]
  exact List.filter_append_perm _ _

/-- **C7**: the extension allow-filter (the `PathBuf`-shape implementation of
`ExtensionFilter`) is idempotent: filtering an already-filtered sequence with
the same allowed set yields the same sequence. -/
theorem extension_filter_idempotent (allowed : List String) (xs : List RPath) :
    runExtensionFilterPath allowed (runExtensionFilterPath allowed xs) =
      runExtensionFilterPath allowed xs := by
  simp [runExtensionFilterPath_eq_filter, List.filter_filter]

/-! ## Claim theorems: path re-root -/

/-- **C8, counterexample**: the round-trip fails when the first re-root
succeeds but the stripped remainder is absolute: with an empty strip prefix
on the absolute path `/a` and replacement `/x`, `Path::join` discards the
replacement (`/x` joined with absolute `/a` is `/a`), and the reverse
operation cannot strip `/x` from `/a`. -/
theorem path_re_root_roundtrip_cex :
    path_re_root [Component.rootDir, Component.normal "a"] []
        [Component.rootDir, Component.normal "x"] =
      .ok [Component.rootDir, Component.normal "a"] ∧
    path_re_root [Component.rootDir, Component.normal "a"]
        [Component.rootDir, Component.normal "x"] [] = .error () := by
  exact ⟨rfl, by decide⟩

/-- **C8, amended**: if `path_re_root(path, strip, replace)` succeeds with
result `r` and the remainder of `path` after removing `strip` is not an
absolute path (which only fails when `strip` is empty and `path` absolute),
then `path_re_root(r, replace, strip)` succeeds and returns `path`. -/
theorem path_re_root_roundtrip (p find rep r : RPath)
    (h : path_re_root p find rep = .ok r)
    (hrel : RPath.isAbsolute (p.drop find.length) = false) :
    path_re_root r rep find = .ok p := by
  unfold path_re_root stripPrefixComponents at h ⊢
  by_cases hpre : find.isPrefixOf p = true
  · rw [if_pos hpre] at h
    have hr : r = RPath.join rep (p.drop find.length) := by
      cases h; rfl
    have hjoin : r = rep ++ p.drop find.length := by
      rw [hr]; unfold RPath.join; rw [hrel]; simp
    have hpre2 : rep.isPrefixOf r = true := by
      rw [List.isPrefixOf_iff_prefix, hjoin]
      exact ⟨_, rfl⟩
    have hp : find ++ p.drop find.length = p :=
      List.prefix_iff_eq_append.mp (List.isPrefixOf_iff_prefix.mp hpre)
    rw [if_pos hpre2]
    show Except.ok (RPath.join find (r.drop rep.length)) = Except.ok p
    rw [hjoin, List.drop_left]
    unfold RPath.join
    rw [hrel]
    simp [hp]
  · rw [if_neg hpre] at h
    cases h

/-- Witness for the amended C8 at a concrete input: re-rooting `/a/b` from
`/a` to `x` gives `x/b`, and re-rooting that back returns `/a/b`. -/
theorem path_re_root_roundtrip_witness :
    path_re_root [Component.rootDir, Component.normal "a", Component.normal "b"]
        [Component.rootDir, Component.normal "a"] [Component.normal "x"] =
      .ok [Component.normal "x", Component.normal "b"] ∧
    RPath.isAbsolute
        (([Component.rootDir, Component.normal "a", Component.normal "b"] : RPath).drop
          ([Component.rootDir, Component.normal "a"] : RPath).length) = false ∧
    path_re_root [Component.normal "x", Component.normal "b"]
        [Component.normal "x"] [Component.rootDir, Component.normal "a"] =
      .ok [Component.rootDir, Component.normal "a", Component.normal "b"] :=
  ⟨by decide, by decide,
    path_re_root_roundtrip
      [Component.rootDir, Component.normal "a", Component.normal "b"]
      [Component.rootDir, Component.normal "a"] [Component.normal "x"]
      [Component.normal "x", Component.normal "b"] (by decide) (by decide)⟩

/-- **C9**: `path_re_root(path, prefix, replacement)` fails exactly when the
prefix's components are not an initial segment of the path's components; on
success the result is the replacement joined (in the `Path::join` sense) with
the remainder of the path after the prefix's components. -/
theorem path_re_root_failure_characterization (p find rep : RPath) :
    ((∃ e, path_re_root p find rep = .error e) ↔ ¬ find <+: p) ∧
    (∀ r, path_re_root p find rep = .ok r →
      r = RPath.join rep (p.drop find.length)) := by
  unfold path_re_root stripPrefixComponents
  by_cases hpre : find.isPrefixOf p = true
  · have : find <+: p := List.isPrefixOf_iff_prefix.mp hpre
    simp only [hpre, if_true]
    constructor
    · simp [this]
    · intro r hr
      cases hr; rfl
  · have : ¬ find <+: p := fun hc =>
      hpre (List.isPrefixOf_iff_prefix.mpr hc)
    simp only [hpre, if_false]
    constructor
    · simp [this]
    · intro r hr
      cases hr

/-- Witness for C9 at concrete inputs: stripping `/a` from `/a/b` succeeds
and yields the characterized result; stripping `/c` from `/a/b` fails. -/
theorem path_re_root_failure_characterization_witness :
    ([Component.normal "x", Component.normal "b"] : RPath) =
      RPath.join [Component.normal "x"]
        (([Component.rootDir, Component.normal "a", Component.normal "b"] : RPath).drop
          ([Component.rootDir, Component.normal "a"] : RPath).length) ∧
    (∃ e, path_re_root [Component.rootDir, Component.normal "a", Component.normal "b"]
        [Component.rootDir, Component.normal "c"] [Component.normal "x"] = .error e) :=
  ⟨(path_re_root_failure_characterization
      [Component.rootDir, Component.normal "a", Component.normal "b"]
      [Component.rootDir, Component.normal "a"] [Component.normal "x"]).2
      [Component.normal "x", Component.normal "b"] (by decide),
    (path_re_root_failure_characterization
      [Component.rootDir, Component.normal "a", Component.normal "b"]
      [Component.rootDir, Component.normal "c"] [Component.normal "x"]).1.mpr
      (by decide)⟩

/-! ## Claim theorems: item-shape polymorphism -/

/-- **C5, counterexample**: the filter family is not polymorphic over the
full closed set of four item shapes: the extension allow-filter (both
`ExtensionFilter` and `AllowExtensions`) has no fallible-path
(`Result<PathBuf>`) implementation. -/
theorem extension_filter_shape_cex :
    ¬ (∀ shape ∈ allItemShapes,
        shape ∈ extensionFilterShapes ∧ shape ∈ allowExtensionsShapes) := by
  decide

/-- **C5, amended**: the component-name filter is implemented for all four
item shapes and the entry-to-path projector for the two entry shapes, but
the extension allow-filter (both `ExtensionFilter` and `AllowExtensions`) is
implemented for exactly three of the four shapes — fallible entry, bare
entry and plain path — with no fallible-path implementation; on its three
supported shapes the implementations realize the one shared allowed-extension
specification. -/
theorem filter_shape_support (allowed : List String)
    (xs : List (Except IoErr Entry)) (ys : List Entry) (ps : List RPath) :
    componentFilterShapes = allItemShapes ∧
    entryToPathShapes = [ItemShape.bareEntry, ItemShape.fallibleEntry] ∧
    extensionFilterShapes =
      [ItemShape.fallibleEntry, ItemShape.bareEntry, ItemShape.plainPath] ∧
    allowExtensionsShapes = extensionFilterShapes ∧
    extensionFilterShapes.contains ItemShape.falliblePath = false ∧
    oksOf (runExtensionFilterRE allowed xs) =
      (oksOf xs).filter (fun e => extensionKeeps allowed e.path) ∧
    runExtensionFilterEntry allowed ys =
      ys.filter (fun e => extensionKeeps allowed e.path) ∧
    runExtensionFilterPath allowed ps = ps.filter (extensionKeeps allowed) :=
  ⟨rfl, rfl, rfl, rfl, by decide, oksOf_runExtensionFilterRE allowed xs,
    runExtensionFilterEntry_eq_filter allowed ys,
    runExtensionFilterPath_eq_filter allowed ps⟩

/-! ## Traversal engine lemmas -/

theorem digest_dir_stats_files (s : ReadDirRecursive) (e : Entry) :
    (s.digest_dir e).stats.total_files_consumed = s.stats.total_files_consumed := by
  unfold ReadDirRecursive.digest_dir
  dsimp only
  split <;> rfl

theorem digest_dir_pending (s : ReadDirRecursive) (e : Entry) :
    (s.digest_dir e).pending_dirs = e :: s.pending_dirs := by
  unfold ReadDirRecursive.digest_dir
  dsimp only
  split <;> rfl

theorem register_meta_error_stats (s : ReadDirRecursive) (e : IoErr) (ent : Entry) :
    (s.register_meta_error e ent).stats = s.stats := rfl

theorem register_rd_error_stats (s : ReadDirRecursive) (e : IoErr) :
    (s.register_rd_error e).stats = s.stats := rfl

theorem register_meta_error_pending (s : ReadDirRecursive) (e : IoErr) (ent : Entry) :
    (s.register_meta_error e ent).pending_dirs = s.pending_dirs := rfl

theorem register_rd_error_pending (s : ReadDirRecursive) (e : IoErr) :
    (s.register_rd_error e).pending_dirs = s.pending_dirs := rfl

/-- Per-pull file accounting for the inner loop: an `Ok` yield is an entry
whose metadata succeeded and reported a non-directory, and it bumps
`total_files_consumed` by exactly one; an `Err` yield and exhaustion leave
the counter unchanged. -/
theorem nextLoop_files (fs : FS) :
    ∀ (fuel : Nat) (s : ReadDirRecursive),
    match ReadDirRecursive.nextLoop fs fuel s with
    | .yield (.ok e) s' =>
        (∃ m, fs.metadata e = .ok m ∧ m.is_dir = false) ∧
        s'.stats.total_files_consumed = s.stats.total_files_consumed + 1
    | .yield (.error _) s' =>
        s'.stats.total_files_consumed = s.stats.total_files_consumed
    | .done s' => s'.stats.total_files_consumed = s.stats.total_files_consumed
    | .outOfFuel => True := by
  intro fuel
  induction fuel with
  | zero => intro s; simp [ReadDirRecursive.nextLoop]
  | succ n ih =>
      intro s
      rw [ReadDirRecursive.nextLoop]
      cases hrd : s.read_dir with
      | nil =>
          dsimp only
          cases hp : s.pending_dirs with
          | nil => simp
          | cons d pend =>
              dsimp only
              cases hopen : fs.read_dir d.path with
              | error e => simp [register_rd_error_stats]
              | ok rd =>
                  dsimp only
                  simpa using
                    ih { s with pending_dirs := pend, read_dir := rd,
                                current_path := d.path }
      | cons x rest =>
          cases x with
          | error err => dsimp only; simp [register_rd_error_stats]
          | ok entry =>
              dsimp only
              cases hm : fs.metadata entry with
              | error e => dsimp only; simp [register_meta_error_stats]
              | ok meta =>
                  dsimp only
                  cases hd : meta.is_dir with
                  | true =>
                      rw [if_pos rfl]
                      simpa [digest_dir_stats_files] using
                        ih (ReadDirRecursive.digest_dir
                          { s with read_dir := rest } entry)
                  | false =>
                      rw [if_neg Bool.false_ne_true]
                      exact ⟨⟨meta, hm, hd⟩, rfl⟩

/-- Per-pull preservation of the pending-stack invariant by the inner loop. -/
theorem nextLoop_pending (fs : FS) :
    ∀ (fuel : Nat) (s : ReadDirRecursive), pendingDirsOnly fs s →
    match ReadDirRecursive.nextLoop fs fuel s with
    | .yield _ s' => pendingDirsOnly fs s'
    | .done s' => pendingDirsOnly fs s'
    | .outOfFuel => True := by
  intro fuel
  induction fuel with
  | zero => intro s _; simp [ReadDirRecursive.nextLoop]
  | succ n ih =>
      intro s hinv
      rw [ReadDirRecursive.nextLoop]
      cases hrd : s.read_dir with
      | nil =>
          dsimp only
          cases hp : s.pending_dirs with
          | nil => exact hinv
          | cons d pend =>
              dsimp only
              have hpend : pendingDirsOnly fs { s with pending_dirs := pend } := by
                intro e he
                exact hinv e (by rw [hp]; exact List.mem_cons_of_mem d he)
              cases hopen : fs.read_dir d.path with
              | error e =>
                  dsimp only
                  intro e' he'
                  exact hpend e' he'
              | ok rd =>
                  dsimp only
                  exact ih { s with pending_dirs := pend, read_dir := rd,
                                    current_path := d.path } hpend
      | cons x rest =>
          cases x with
          | error err =>
              dsimp only
              intro e' he'
              exact hinv e' he'
          | ok entry =>
              dsimp only
              cases hm : fs.metadata entry with
              | error e =>
                  dsimp only
                  intro e' he'
                  exact hinv e' he'
              | ok meta =>
                  dsimp only
                  cases hd : meta.is_dir with
                  | true =>
                      rw [if_pos rfl]
                      refine ih _ ?_
                      intro e he
                      rw [digest_dir_pending] at he
                      rcases List.mem_cons.mp he with rfl | he'
                      · exact ⟨meta, hm, hd⟩
                      · exact hinv e he'
                  | false =>
                      rw [if_neg Bool.false_ne_true]
                      intro e' he'
                      exact hinv e' he'

/-- Per-pull file accounting for `next` (the statistics bookkeeping before
the loop does not touch `total_files_consumed`). -/
theorem next_files (fs : FS) (now fuel : Nat) (s : ReadDirRecursive) :
    match ReadDirRecursive.next fs now fuel s with
    | .yield (.ok e) s' =>
        (∃ m, fs.metadata e = .ok m ∧ m.is_dir = false) ∧
        s'.stats.total_files_consumed = s.stats.total_files_consumed + 1
    | .yield (.error _) s' =>
        s'.stats.total_files_consumed = s.stats.total_files_consumed
    | .done s' => s'.stats.total_files_consumed = s.stats.total_files_consumed
    | .outOfFuel => True := by
  unfold ReadDirRecursive.next
  by_cases hst : s.stats.iteration_started = none
  · rw [if_pos hst]
    simpa using nextLoop_files fs fuel _
  · rw [if_neg hst]
    simpa using nextLoop_files fs fuel _

/-- Per-pull preservation of the pending-stack invariant by `next`. -/
theorem next_pending (fs : FS) (now fuel : Nat) (s : ReadDirRecursive)
    (hinv : pendingDirsOnly fs s) :
    match ReadDirRecursive.next fs now fuel s with
    | .yield _ s' => pendingDirsOnly fs s'
    | .done s' => pendingDirsOnly fs s'
    | .outOfFuel => True := by
  unfold ReadDirRecursive.next
  by_cases hst : s.stats.iteration_started = none
  · rw [if_pos hst]
    exact nextLoop_pending fs fuel _ hinv
  · rw [if_neg hst]
    exact nextLoop_pending fs fuel _ hinv

/-- Whole-drain file accounting, relative to an arbitrary starting state. -/
theorem drain_files (fs : FS) (now fuel : Nat) :
    ∀ (steps : Nat) (s : ReadDirRecursive) (items : List (Except IoErr Entry))
      (sf : ReadDirRecursive),
    ReadDirRecursive.drain fs now fuel steps s = some (items, sf) →
    sf.stats.total_files_consumed
        = s.stats.total_files_consumed + (oksOf items).length ∧
    ∀ e ∈ oksOf items, ∃ m, fs.metadata e = .ok m ∧ m.is_dir = false := by
  intro steps
  induction steps with
  | zero => intro s items sf h; simp [ReadDirRecursive.drain] at h
  | succ n ih =>
      intro s items sf h
      rw [ReadDirRecursive.drain] at h
      have hnf := next_files fs now fuel s
      cases hn : ReadDirRecursive.next fs now fuel s with
      | yield item s' =>
          rw [hn] at h hnf
          dsimp only at h hnf
          cases hd : ReadDirRecursive.drain fs now fuel n s' with
          | none => rw [hd] at h; cases h
          | some r =>
              rcases r with ⟨its, sf'⟩
              rw [hd] at h
              dsimp only at h
              have hih := ih s' its sf' hd
              cases h
              cases item with
              | ok e =>
                  dsimp only at hnf
                  refine ⟨?_, ?_⟩
                  · rw [hih.1, hnf.2]
                    simp only [oksOf, List.length_cons]
                    omega
                  · intro x hx
                    rcases List.mem_cons.mp (by simpa [oksOf] using hx) with rfl | hx'
                    · exact hnf.1
                    · exact hih.2 x hx'
              | error err =>
                  dsimp only at hnf
                  refine ⟨?_, fun x hx => hih.2 x (by simpa [oksOf] using hx)⟩
                  rw [hih.1, hnf]
                  simp [oksOf]
      | done s' =>
          rw [hn] at h hnf
          dsimp only at h hnf
          cases h
          exact ⟨by simpa [oksOf] using hnf, by simp [oksOf]⟩
      | outOfFuel =>
          rw [hn] at h
          dsimp only at h
          cases h

/-! ## Claim theorems: traversal engine -/

/-- **C1**: over a complete traversal (a drain that terminates), every `Ok`
item yielded is an entry whose metadata query succeeded and reported a
non-directory — directories with successful metadata are never yielded — and
when the traversal is exhausted `total_files_consumed` equals the number of
`Ok` items yielded, each such encounter having incremented it exactly once. -/
theorem traversal_yields_exactly_files (fs : FS) (root : RPath)
    (now fuel steps : Nat) (s0 sf : ReadDirRecursive)
    (items : List (Except IoErr Entry))
    (hnew : ReadDirRecursive.new fs root = .ok s0)
    (hdrain : ReadDirRecursive.drain fs now fuel steps s0 = some (items, sf)) :
    sf.stats.total_files_consumed = (oksOf items).length ∧
    ∀ e ∈ oksOf items, ∃ m, fs.metadata e = .ok m ∧ m.is_dir = false := by
  have h0 : s0.stats.total_files_consumed = 0 := by
    unfold ReadDirRecursive.new at hnew
    rcases hrd : fs.read_dir root with e | rd <;> rw [hrd] at hnew
    · cases hnew
    · cases hnew; rfl
  have hmain := drain_files fs now fuel steps s0 items sf hdrain
  rw [h0] at hmain
  simpa using hmain

/-- Witness for C1 on the concrete filesystem `fsEx`: the full drain yields
the two files `f` and `d/g`, and the exhausted stats record exactly two
consumed files. -/
theorem traversal_yields_exactly_files_witness :
    ReadDirRecursive.new fsEx [] = .ok rdrEx ∧
    ReadDirRecursive.drain fsEx 0 10 10 rdrEx =
      some ([.ok ⟨[.normal "f"]⟩, .ok ⟨[.normal "d", .normal "g"]⟩], rdrFinalEx) ∧
    (rdrFinalEx.stats.total_files_consumed =
        (oksOf ([.ok ⟨[.normal "f"]⟩,
          .ok ⟨[.normal "d", .normal "g"]⟩] : List (Except IoErr Entry))).length ∧
      ∀ e ∈ oksOf ([.ok ⟨[.normal "f"]⟩,
          .ok ⟨[.normal "d", .normal "g"]⟩] : List (Except IoErr Entry)),
        ∃ m, fsEx.metadata e = .ok m ∧ m.is_dir = false) :=
  ⟨rfl, by decide,
    traversal_yields_exactly_files fsEx [] 0 10 10 rdrEx rdrFinalEx
      [.ok ⟨[.normal "f"]⟩, .ok ⟨[.normal "d", .normal "g"]⟩] rfl (by decide)⟩

/-- **C2**: in every reachable state of the traversal engine — the freshly
constructed state, and any state produced from a reachable one by a pull —
the pending stack holds only entries whose metadata query succeeded and
reported a directory. -/
theorem pending_stack_dirs_only (fs : FS) (s : ReadDirRecursive)
    (h : Reachable fs s) : pendingDirsOnly fs s := by
  induction h with
  | init root s1 hnew =>
      unfold ReadDirRecursive.new at hnew
      rcases hrd : fs.read_dir root with e | rd <;> rw [hrd] at hnew
      · cases hnew
      · cases hnew
        intro e he
        simp at he
  | step s1 now fuel item s' hr hnext ih =>
      have hp := next_pending fs now fuel s1 ih
      rw [hnext] at hp
      exact hp
  | stepDone s1 now fuel s' hr hnext ih =>
      have hp := next_pending fs now fuel s1 ih
      rw [hnext] at hp
      exact hp

/-- Witness for C2: the invariant holds at the concrete reachable state
obtained by constructing the engine on `fsEx`. -/
theorem pending_stack_dirs_only_witness : pendingDirsOnly fsEx rdrEx :=
  pending_stack_dirs_only fsEx rdrEx (Reachable.init [] rdrEx rfl)

/-- **C3**: construction opens the root eagerly and fails exactly when that
open fails (forwarding the same error, producing no state); on success the
engine starts at the root with the freshly opened handle, an empty pending
stack, default stats and empty error logs. -/
theorem new_eager_root_open (fs : FS) (p : RPath) :
    (∀ e, ReadDirRecursive.new fs p = .error e ↔ fs.read_dir p = .error e) ∧
    (∀ s, ReadDirRecursive.new fs p = .ok s →
      s.current_path = p ∧ s.pending_dirs = [] ∧ s.stats = {} ∧
      s.meta_errors = [] ∧ s.rd_errors = [] ∧ fs.read_dir p = .ok s.read_dir) := by
  unfold ReadDirRecursive.new
  rcases hrd : fs.read_dir p with e | rd
  · constructor
    · intro e'; simp
    · intro s hs; cases hs
  · constructor
    · intro e'; simp
    · intro s hs
      cases hs
      exact ⟨rfl, rfl, rfl, rfl, rfl, rfl⟩

/-- Witness for C3 on `fsEx`: constructing at the root succeeds and produces
exactly the fresh state, and constructing at a non-openable path forwards the
open error. -/
theorem new_eager_root_open_witness :
    (rdrEx.current_path = ([] : RPath) ∧ rdrEx.pending_dirs = [] ∧
      rdrEx.stats = {} ∧ rdrEx.meta_errors = [] ∧ rdrEx.rd_errors = [] ∧
      fsEx.read_dir [] = .ok rdrEx.read_dir) ∧
    ReadDirRecursive.new fsEx [Component.normal "missing"] = .error "not found" :=
  ⟨(new_eager_root_open fsEx []).2 rdrEx rfl,
    (new_eager_root_open fsEx [Component.normal "missing"]).1 "not found" |>.mpr
      (by decide)⟩

/-! ## Pruning traversal lemmas -/

/-- One pull of the pruning traversal from a state with an empty pending
stack all of whose remaining entries have paths containing the designated
component: nothing is ever pushed, every directory with successful metadata
is yielded immediately as a match, non-directories are skipped and errors
surfaced, following the expected pruned output item by item. -/
theorem fdwc_pruned_step (fs : FS) (name : String) :
    ∀ (fuel : Nat) (s : FindDirsWithComponent),
    s.component = name →
    s.pending_dirs = [] →
    (∀ e, Except.ok e ∈ s.read_dir → hasComponentNamed e.path name = true) →
    match FindDirsWithComponent.next fs fuel s with
    | .yield item s' =>
        s'.component = name ∧ s'.pending_dirs = [] ∧
        (∀ e, Except.ok e ∈ s'.read_dir → hasComponentNamed e.path name = true) ∧
        List.filterMap (prunedItemOf fs) s.read_dir =
          item :: List.filterMap (prunedItemOf fs) s'.read_dir
    | .done s' =>
        s'.pending_dirs = [] ∧ List.filterMap (prunedItemOf fs) s.read_dir = []
    | .outOfFuel => True := by
  intro fuel
  induction fuel with
  | zero => intro s _ _ _; simp [FindDirsWithComponent.next]
  | succ n ih =>
      intro s hc hp hall
      rw [FindDirsWithComponent.next]
      cases hrd : s.read_dir with
      | nil =>
          dsimp only
          rw [hp]
          dsimp only
          exact ⟨hp, rfl⟩
      | cons x rest =>
          cases x with
          | error err =>
              dsimp only
              refine ⟨hc, hp, ?_, ?_⟩
              · intro e he
                exact hall e (by rw [hrd]; exact List.mem_cons_of_mem _ he)
              · simp [List.filterMap_cons, prunedItemOf]
          | ok entry =>
              dsimp only
              have hmemhd : Except.ok entry ∈ s.read_dir := by
                rw [hrd]; exact List.mem_cons_self _ _
              have halltl : ∀ e, Except.ok e ∈ rest →
                  hasComponentNamed e.path name = true := by
                intro e he
                exact hall e (by rw [hrd]; exact List.mem_cons_of_mem _ he)
              cases hm : fs.metadata entry with
              | error e =>
                  dsimp only
                  exact ⟨hc, hp, halltl, by simp [List.filterMap_cons, prunedItemOf, hm]⟩
              | ok meta =>
                  dsimp only
                  cases hd : meta.is_dir with
                  | true =>
                      rw [if_pos rfl]
                      have hhc : hasComponentNamed entry.path s.component = true := by
                        rw [hc]; exact hall entry hmemhd
                      rw [if_pos hhc]
                      exact ⟨hc, hp, halltl,
                        by simp [List.filterMap_cons, prunedItemOf, hm, hd]⟩
                  | false =>
                      rw [if_neg Bool.false_ne_true]
                      have hfm : List.filterMap (prunedItemOf fs)
                            (Except.ok entry :: rest) =
                          List.filterMap (prunedItemOf fs) rest := by
                        simp [List.filterMap_cons, prunedItemOf, hm, hd]
                      rw [hfm]
                      exact ih { s with read_dir := rest } hc hp halltl

/-- Whole-drain version of `fdwc_pruned_step`. -/
theorem fdwc_pruned_drain (fs : FS) (name : String) (fuel : Nat) :
    ∀ (steps : Nat) (s : FindDirsWithComponent)
      (items : List (Except IoErr Entry)) (sf : FindDirsWithComponent),
    s.component = name →
    s.pending_dirs = [] →
    (∀ e, Except.ok e ∈ s.read_dir → hasComponentNamed e.path name = true) →
    FindDirsWithComponent.drain fs fuel steps s = some (items, sf) →
    items = List.filterMap (prunedItemOf fs) s.read_dir ∧ sf.pending_dirs = [] := by
  intro steps
  induction steps with
  | zero => intro s items sf _ _ _ h; simp [FindDirsWithComponent.drain] at h
  | succ n ih =>
      intro s items sf hc hp hall h
      rw [FindDirsWithComponent.drain] at h
      have hstep := fdwc_pruned_step fs name fuel s hc hp hall
      cases hn : FindDirsWithComponent.next fs fuel s with
      | yield item s' =>
          rw [hn] at h hstep
          dsimp only at h hstep
          obtain ⟨hc', hp', hall', hfm⟩ := hstep
          cases hdr : FindDirsWithComponent.drain fs fuel n s' with
          | none => rw [hdr] at h; cases h
          | some r =>
              rcases r with ⟨its, sf'⟩
              rw [hdr] at h
              dsimp only at h
              have hih := ih s' its sf' hc' hp' hall' hdr
              cases h
              exact ⟨by rw [hfm, hih.1], hih.2⟩
      | done s' =>
          rw [hn] at h hstep
          dsimp only at h hstep
          cases h
          exact ⟨hstep.2.symm, hstep.1⟩
      | outOfFuel =>
          rw [hn] at h
          dsimp only at h
          cases h

/-! ## Claim theorem: pruning traversal -/

/-- **C10**: `FindDirsWithComponent` tests the discovered directory's full
path, which starts with the root path supplied at construction; so when the
root itself contains the designated name as a component (and directory
listings extend the listed directory's path, as the real filesystem
guarantees), a complete traversal yields exactly: each read or metadata
error, and each directory with successful metadata immediately as a match —
non-directories are skipped — while no subdirectory is ever pushed onto the
pending stack or descended into (the output covers the root's own listing
only, and the pending stack ends empty). -/
theorem pruning_root_match_stops_descent (fs : FS) (root : RPath) (name : String)
    (fuel steps : Nat) (s0 sf : FindDirsWithComponent)
    (items : List (Except IoErr Entry))
    (hroot : hasComponentNamed root name = true)
    (hnew : FindDirsWithComponent.new fs root name = .ok s0)
    (hext : ∀ e, Except.ok e ∈ s0.read_dir → root <+: e.path)
    (hdrain : FindDirsWithComponent.drain fs fuel steps s0 = some (items, sf)) :
    items = List.filterMap (prunedItemOf fs) s0.read_dir ∧
    sf.pending_dirs = [] := by
  have hshape : s0.component = name ∧ s0.pending_dirs = [] := by
    unfold FindDirsWithComponent.new at hnew
    rcases hrd : fs.read_dir root with e | rd <;> rw [hrd] at hnew
    · cases hnew
    · cases hnew; exact ⟨rfl, rfl⟩
  have hall : ∀ e, Except.ok e ∈ s0.read_dir →
      hasComponentNamed e.path name = true := by
    intro e he
    have hpre := hext e he
    have hex : ∃ c ∈ root, c.asOsStr = name := by
      simpa [hasComponentNamed] using hroot
    rcases hex with ⟨c, hcr, hcn⟩
    have hcm : c ∈ e.path := hpre.subset hcr
    simp only [hasComponentNamed, List.any_eq_true, decide_eq_true_eq]
    exact ⟨c, hcm, hcn⟩
  exact fdwc_pruned_drain fs name fuel steps s0 items sf hshape.1 hshape.2 hall hdrain

/-- Witness for C10 on `fsPruneEx`: with root `/sub` (which contains the
component `sub`), the full drain yields only the matched directory `/sub/d`
(the file `/sub/f` is skipped), nothing is descended into, and the pending
stack ends empty. -/
theorem pruning_root_match_stops_descent_witness :
    FindDirsWithComponent.drain fsPruneEx 10 10 fdwcEx =
      some ([Except.ok ⟨[.rootDir, .normal "sub", .normal "d"]⟩],
        { component := "sub", read_dir := [], pending_dirs := [] }) ∧
    ([Except.ok ⟨[.rootDir, .normal "sub", .normal "d"]⟩] :
        List (Except IoErr Entry)) =
      List.filterMap (prunedItemOf fsPruneEx) fdwcEx.read_dir ∧
    ({ component := "sub", read_dir := [], pending_dirs := [] } :
        FindDirsWithComponent).pending_dirs = [] :=
  ⟨by decide,
    pruning_root_match_stops_descent fsPruneEx [.rootDir, .normal "sub"] "sub"
      10 10 fdwcEx { component := "sub", read_dir := [], pending_dirs := [] }
      [Except.ok ⟨[.rootDir, .normal "sub", .normal "d"]⟩]
      (by decide) (by decide)
      (by
        intro e he
        simp only [fdwcEx, List.mem_cons, List.not_mem_nil, or_false,
          List.mem_singleton] at he
        rcases he with he | he <;>
          · cases he
            decide)
      (by decide)⟩

end Itfs
